import Mathlib

/-! # Linezz: vertex record layout and 2D distance functions

Embedding of

* `RealityKitDrawingApp/Utilities/MetalPacking.h` (host aliases of the packed vector types),
* `RealityKitDrawingApp/Brushes/Solid/SolidBrushVertex.h` (the vertex record and its
  `static_assert`),
* `RealityKitDrawingApp/Splash Screen/DistanceFunctions.h` (the two distance helpers).

The record layout is computed by the C struct layout rule on sizes and alignments in bytes.
The distance helpers are written over an arbitrary ordered field with a square-root
operation; the theorems instantiate it with the reals and `Real.sqrt`.
-/

namespace Linezz

/-! ## C struct layout -/

/-- Size and natural alignment of a C type, in bytes. -/
structure CType where
  size : Nat
  align : Nat
  deriving DecidableEq, Repr

/-- A struct member declaration: its name and its type. -/
structure Member where
  name : String
  type : CType
  deriving DecidableEq, Repr

/-- A member placed in a struct: `offset` is its first byte, `offset + size` one past its last. -/
structure Placed where
  name : String
  offset : Nat
  size : Nat
  deriving DecidableEq, Repr

/-- Result of laying out a struct. -/
structure Layout where
  fields : List Placed
  size : Nat
  align : Nat
  deriving DecidableEq, Repr

/-- Least multiple of `a` that is at least `n`. -/
def alignUp (n a : Nat) : Nat := (n + a - 1) / a * a

/-- Alignment of a member under the packing in force: `#pragma pack(k)` caps the natural
alignment at `k`; with no pack directive (`none`) the natural alignment is used. -/
def memberAlign (pack : Option Nat) (t : CType) : Nat :=
  match pack with
  | none => t.align
  | some k => min k t.align

/-- Places the members in declaration order starting at byte `off`, with `al` the largest
member alignment seen so far. Returns the placed members, the end of the last member and the
struct alignment. -/
def placeMembers (pack : Option Nat) : List Member → Nat → Nat → List Placed × Nat × Nat
  | [], off, al => ([], off, al)
  | m :: ms, off, al =>
    let a := memberAlign pack m.type
    let o := alignUp off a
    let rest := placeMembers pack ms (o + m.type.size) (max al a)
    (⟨m.name, o, m.type.size⟩ :: rest.1, rest.2)

/-- The C struct layout rule: members in declaration order, each at the next multiple of its
alignment; the struct alignment is the largest member alignment and the struct size is the
end of the last member rounded up to the struct alignment. -/
def structLayout (pack : Option Nat) (ms : List Member) : Layout :=
  let r := placeMembers pack ms 0 1
  ⟨r.1, alignUp r.2.1 r.2.2, r.2.2⟩

/-- The C type of a laid-out struct (its `sizeof` and `alignof`). -/
def Layout.toCType (l : Layout) : CType := ⟨l.size, l.align⟩

/-- Offset of the member called `n`, if there is one. -/
def Layout.offsetOf (l : Layout) (n : String) : Option Nat :=
  (l.fields.find? (fun f => f.name == n)).map (fun f => f.offset)

/-- One past the last byte of the last member (0 for a struct without members). -/
def Layout.fieldsEnd (l : Layout) : Nat :=
  match l.fields.getLast? with
  | none => 0
  | some f => f.offset + f.size

/-- Sum of the declared member sizes. -/
def Layout.fieldsSize (l : Layout) : Nat := (l.fields.map (fun f => f.size)).sum

/-- Bytes between the end of the last member and the end of the struct. -/
def Layout.trailingPadding (l : Layout) : Nat := l.size - l.fieldsEnd

/-- Two placed members share no byte. -/
def Placed.disjoint (f g : Placed) : Prop :=
  f.offset + f.size ≤ g.offset ∨ g.offset + g.size ≤ f.offset

instance (f g : Placed) : Decidable (Placed.disjoint f g) := by
  unfold Placed.disjoint; infer_instance

/-- No two members of the layout overlap. -/
def Layout.noOverlap (l : Layout) : Prop := l.fields.Pairwise Placed.disjoint

instance (l : Layout) : Decidable l.noOverlap := by
  unfold Layout.noOverlap; infer_instance

/-! ## MetalPacking.h -/

/-- Modelled from the spec: `float` of the platform ABI, a 32-bit float: 4 bytes, alignment 4. -/
def float : CType := ⟨4, 4⟩

/-- Modelled from the spec: `_Float16` of the platform ABI, a 16-bit float: 2 bytes,
alignment 2. -/
def _Float16 : CType := ⟨2, 2⟩

/-- Modelled from the spec: `MTLPackedFloat3` of the Metal SDK header (not among the sources),
3 contiguous 32-bit floats: 12 bytes, alignment 4. -/
def MTLPackedFloat3 : CType := ⟨12, 4⟩

/-- Modelled from the spec: `simd_float2` of the simd SDK header (not among the sources),
2 contiguous 32-bit floats: 8 bytes, natural alignment 8. -/
def simd_float2 : CType := ⟨8, 8⟩

/-- Host alias `typedef MTLPackedFloat3 packed_float3;`. -/
def packed_float3 : CType := MTLPackedFloat3

/-- Host alias `typedef simd_float2 packed_float2;`. -/
def packed_float2 : CType := simd_float2

/-- Host type `typedef struct { _Float16 x, y, z; } packed_half3;`, declared outside any pack
directive, laid out by the same rule. -/
def packed_half3 : CType :=
  (structLayout none [⟨"x", _Float16⟩, ⟨"y", _Float16⟩, ⟨"z", _Float16⟩]).toCType

/-! ## SolidBrushVertex.h -/

/-- The member declarations of `struct SolidBrushVertex`, in source order. -/
def SolidBrushVertex : List Member :=
  [ ⟨"position", packed_float3⟩,
    ⟨"normal", packed_float3⟩,
    ⟨"bitangent", packed_float3⟩,
    ⟨"materialProperties", packed_float2⟩,
    ⟨"curveDistance", float⟩,
    ⟨"color", packed_half3⟩ ]

/-- Layout of `struct SolidBrushVertex` as the header declares it, inside
`#pragma pack(push, 4)`. -/
def SolidBrushVertex.layout : Layout := structLayout (some 4) SolidBrushVertex

/-- Value of `sizeof(struct SolidBrushVertex)` as the header declares it. -/
def SolidBrushVertex.sizeof : Nat := SolidBrushVertex.layout.size

/-- The condition of `static_assert(sizeof(struct SolidBrushVertex) == 56, "ensure packing")`. -/
def SolidBrushVertex.static_assert : Bool := SolidBrushVertex.sizeof == 56

/-- The same member declarations laid out with no pack directive in force. -/
def SolidBrushVertex.naturalLayout : Layout := structLayout none SolidBrushVertex

/-! ## DistanceFunctions.h -/

/-- Metal `float2`, with components in `K`. -/
@[ext]
structure float2 (K : Type) where
  x : K
  y : K

/-- Metal `float4`, with components in `K`. -/
@[ext]
structure float4 (K : Type) where
  x : K
  y : K
  z : K
  w : K

section Scalars

variable {K : Type} [LinearOrderedField K]

/-- Componentwise `float2 - float2`. -/
instance : Sub (float2 K) := ⟨fun u v => ⟨u.x - v.x, u.y - v.y⟩⟩

/-- Componentwise `float2 * float`. -/
instance : HMul (float2 K) K (float2 K) := ⟨fun u s => ⟨u.x * s, u.y * s⟩⟩

/-- Componentwise `float2 + float`, the scalar added to both components. -/
instance : HAdd (float2 K) K (float2 K) := ⟨fun u s => ⟨u.x + s, u.y + s⟩⟩

/-- Modelled from the spec: `metal::dot` of metal_stdlib (not among the sources), the dot
product of two 2-vectors. -/
def metal.dot (u v : float2 K) : K := u.x * v.x + u.y * v.y

/-- Modelled from the spec: `metal::length` of metal_stdlib (not among the sources), the
Euclidean length `sqrt(dot(v, v))`; `sqrt` is the square root of the scalar type. -/
def metal.length (sqrt : K → K) (v : float2 K) : K := sqrt (metal.dot v v)

/-- Modelled from the spec: `metal::clamp` of metal_stdlib (not among the sources),
`min(max(x, lo), hi)`. -/
def metal.clamp (x lo hi : K) : K := min (max x lo) hi

/-- Modelled from the spec: `metal::abs` of metal_stdlib on a 2-vector, componentwise. -/
def metal.abs (v : float2 K) : float2 K := ⟨|v.x|, |v.y|⟩

/-- Modelled from the spec: `metal::max` of metal_stdlib on a 2-vector and a scalar,
componentwise. -/
def metal.max (v : float2 K) (s : K) : float2 K := ⟨Max.max v.x s, Max.max v.y s⟩

/-- The clamped projection parameter `h` computed by `distance_to_line_segment`. -/
def segmentParam (p a b : float2 K) : K :=
  metal.clamp (metal.dot (p - a) (b - a) / metal.dot (b - a) (b - a)) 0 1

/-- Distance from a point `p` to line segment `a <-> b`. -/
def distance_to_line_segment (sqrt : K → K) (p a b : float2 K) : K :=
  let pa := p - a
  let ba := b - a
  let h := metal.clamp (metal.dot pa ba / metal.dot ba ba) 0 1
  metal.length sqrt (pa - ba * h)

/-- Distance from a point `p` to a box with rounded corners: `b` holds the width and height,
`r.x`, `r.y`, `r.z`, `r.w` the roundness top-right, bottom-right, top-left, bottom-left. -/
def signed_distance_to_rounded_box (sqrt : K → K) (p b : float2 K) (r : float4 K) : K :=
  -- r.xy = (p.x > 0.0) ? r.xy : r.zw;
  let r1 : float4 K := if p.x > 0 then { r with x := r.x, y := r.y } else { r with x := r.z, y := r.w }
  -- r.x = (p.y > 0.0) ? r.x : r.y;
  let r2 : float4 K := { r1 with x := if p.y > 0 then r1.x else r1.y }
  let q : float2 K := metal.abs p - b + r2.x
  min (max q.x q.y) 0 + metal.length sqrt (metal.max q 0) - r2.x

/-! ### Reference notions the distance helpers are compared with -/

/-- Euclidean distance between two points of the plane. -/
def euclideanDist (sqrt : K → K) (u v : float2 K) : K :=
  sqrt ((u.x - v.x) ^ 2 + (u.y - v.y) ^ 2)

/-- The point `a + t·(b − a)` of the line through `a` and `b`. -/
def segmentPoint (a b : float2 K) (t : K) : float2 K :=
  ⟨a.x + t * (b.x - a.x), a.y + t * (b.y - a.y)⟩

/-- The corner radius that belongs to the quadrant of `p`: top-right, bottom-right, top-left,
bottom-left. -/
def quadrantRadius (p : float2 K) (r : float4 K) : K :=
  if 0 < p.x ∧ 0 < p.y then r.x
  else if 0 < p.x ∧ p.y ≤ 0 then r.y
  else if p.x ≤ 0 ∧ 0 < p.y then r.z
  else r.w

/-- The rounded-rectangle formula for one radius `ρ`: with `q = |p| − b + ρ`,
`min(max(q.x, q.y), 0) + |max(q, 0)| − ρ`. -/
def roundedBoxFormula (sqrt : K → K) (p b : float2 K) (ρ : K) : K :=
  let qx := |p.x| - b.x + ρ
  let qy := |p.y| - b.y + ρ
  min (max qx qy) 0 + sqrt ((max qx 0) ^ 2 + (max qy 0) ^ 2) - ρ

end Scalars

/-- The plane point with coordinates `v`, as a `float2`. -/
def float2.ofProd (v : ℝ × ℝ) : float2 ℝ := ⟨v.1, v.2⟩

/-! ## The vertex record layout -/

/-- C1: laying out `SolidBrushVertex` by the C struct layout rule under `#pragma pack(4)`, with
`packed_float3` 12 bytes / align 4, `packed_float2` 8 bytes / natural align 8, `float`
4 bytes / align 4 and `packed_half3` 6 bytes / align 2, gives a struct alignment of 4 and a
total size of exactly 56 bytes, so the `static_assert` holds. -/
theorem SolidBrushVertex_sizeof_eq_56 :
    packed_float3 = ⟨12, 4⟩ ∧ packed_float2 = ⟨8, 8⟩ ∧ float = ⟨4, 4⟩ ∧ packed_half3 = ⟨6, 2⟩ ∧
    SolidBrushVertex.layout.align = 4 ∧
    SolidBrushVertex.sizeof = 56 ∧
    SolidBrushVertex.static_assert = true := by
  decide

/-- C2: under the pack(4) layout rule the fields of `SolidBrushVertex` sit at byte offsets
position = 0, normal = 12, bitangent = 24, materialProperties = 36, curveDistance = 44,
color = 48, with sizes 12, 12, 12, 8, 4, 6, and no two fields overlap. -/
theorem SolidBrushVertex_offsets :
    SolidBrushVertex.layout.fields =
      [⟨"position", 0, 12⟩, ⟨"normal", 12, 12⟩, ⟨"bitangent", 24, 12⟩,
       ⟨"materialProperties", 36, 8⟩, ⟨"curveDistance", 44, 4⟩, ⟨"color", 48, 6⟩] ∧
    SolidBrushVertex.layout.offsetOf "position" = some 0 ∧
    SolidBrushVertex.layout.offsetOf "normal" = some 12 ∧
    SolidBrushVertex.layout.offsetOf "bitangent" = some 24 ∧
    SolidBrushVertex.layout.offsetOf "materialProperties" = some 36 ∧
    SolidBrushVertex.layout.offsetOf "curveDistance" = some 44 ∧
    SolidBrushVertex.layout.offsetOf "color" = some 48 ∧
    SolidBrushVertex.layout.noOverlap := by
  decide

/-- C3, as stated, fails: the last field (color, 6 bytes at offset 48) ends at byte 54 and the
declared field sizes sum to 12+12+12+8+4+6 = 54, neither of which is the record size 56. -/
theorem SolidBrushVertex_trailing_pad_counterexample :
    ¬ (SolidBrushVertex.layout.fieldsEnd = SolidBrushVertex.sizeof ∧
       12 + 12 + 12 + 8 + 4 + 6 = SolidBrushVertex.sizeof) ∧
    SolidBrushVertex.layout.fieldsEnd ≠ SolidBrushVertex.sizeof ∧
    SolidBrushVertex.layout.fieldsSize ≠ SolidBrushVertex.sizeof := by
  decide

/-- C3, amended: under 4-byte packing the fields of `SolidBrushVertex` are laid out without
gaps between them (color, 6 bytes at offset 48, ends at byte 54, which is the sum of the
declared field sizes 12+12+12+8+4+6), and the 56-byte record ends with exactly 2 bytes of
implicit trailing padding: 56 is 54 rounded up to the struct alignment 4. -/
theorem SolidBrushVertex_trailing_pad :
    SolidBrushVertex.layout.offsetOf "color" = some 48 ∧
    SolidBrushVertex.layout.fieldsEnd = 54 ∧
    SolidBrushVertex.layout.fieldsSize = 12 + 12 + 12 + 8 + 4 + 6 ∧
    SolidBrushVertex.layout.fieldsSize = SolidBrushVertex.layout.fieldsEnd ∧
    SolidBrushVertex.layout.noOverlap ∧
    SolidBrushVertex.layout.align = 4 ∧
    SolidBrushVertex.sizeof = alignUp 54 4 ∧
    SolidBrushVertex.sizeof = 56 ∧
    SolidBrushVertex.layout.trailingPadding = 2 := by
  decide

/-- C10: the `#pragma pack(push, 4)` is needed for the 56-byte contract: with natural
alignment (no pack directive), where `packed_float2 = simd_float2` has alignment 8,
materialProperties lands at offset 40 instead of 36 and the struct size is 64, not 56, so
the `static_assert` condition would be false. -/
theorem SolidBrushVertex_pack_needed :
    packed_float2.align = 8 ∧
    SolidBrushVertex.layout.offsetOf "materialProperties" = some 36 ∧
    SolidBrushVertex.naturalLayout.offsetOf "materialProperties" = some 40 ∧
    SolidBrushVertex.naturalLayout.size = 64 ∧
    SolidBrushVertex.naturalLayout.size ≠ 56 ∧
    (SolidBrushVertex.naturalLayout.size == 56) = false := by
  decide

/-! ## Component lemmas for the vector operations -/

section ComponentLemmas

variable {K : Type} [LinearOrderedField K]

@[simp]
theorem float2.sub_x (u v : float2 K) : (u - v).x = u.x - v.x := rfl

@[simp]
theorem float2.sub_y (u v : float2 K) : (u - v).y = u.y - v.y := rfl

@[simp]
theorem float2.mul_x (u : float2 K) (s : K) : (u * s).x = u.x * s := rfl

@[simp]
theorem float2.mul_y (u : float2 K) (s : K) : (u * s).y = u.y * s := rfl

@[simp]
theorem float2.add_x (u : float2 K) (s : K) : (u + s).x = u.x + s := rfl

@[simp]
theorem float2.add_y (u : float2 K) (s : K) : (u + s).y = u.y + s := rfl

/-- The radius left in `r.x` by the two selection statements is the one of the quadrant of
`p`, and the rest of the body is the rounded-rectangle formula for it. -/
theorem signed_distance_to_rounded_box_eq_formula (sqrt : K → K) (p b : float2 K)
    (r : float4 K) :
    signed_distance_to_rounded_box sqrt p b r =
      roundedBoxFormula sqrt p b (quadrantRadius p r) := by
  have hsq : ∀ z : K, z * z = z ^ 2 := fun z => (sq z).symm
  unfold signed_distance_to_rounded_box roundedBoxFormula quadrantRadius
  by_cases hx : 0 < p.x <;> by_cases hy : 0 < p.y
  · simp [metal.abs, metal.max, metal.length, metal.dot, hx, hy, hsq]
  · simp [metal.abs, metal.max, metal.length, metal.dot, hx, hy, hsq, not_lt.mp hy]
  · simp [metal.abs, metal.max, metal.length, metal.dot, hx, hy, hsq, not_lt.mp hx]
  · simp [metal.abs, metal.max, metal.length, metal.dot, hx, hy, hsq]

end ComponentLemmas

/-- The radius selected for an all-zero radii vector is zero. -/
theorem quadrantRadius_zero {K : Type} [LinearOrderedField K] (p : float2 K) :
    quadrantRadius p (⟨0, 0, 0, 0⟩ : float4 K) = 0 := by
  unfold quadrantRadius
  split_ifs <;> rfl

/-! ## The rounded box -/

/-- C7: `signed_distance_to_rounded_box p b r` uses exactly one of the four radii, chosen by
the quadrant of `p`: `r.x` when `p.x > 0` and `p.y > 0`, `r.y` when `p.x > 0` and `p.y ≤ 0`,
`r.z` when `p.x ≤ 0` and `p.y > 0`, `r.w` when `p.x ≤ 0` and `p.y ≤ 0`; with `ρ` that radius
and `q = |p| − b + ρ` the result is `min(max(q.x, q.y), 0) + |max(q, 0)| − ρ`, so two radii
vectors that agree on that radius give the same result. -/
theorem rounded_box_uses_quadrant_radius {K : Type} [LinearOrderedField K] (sqrt : K → K)
    (p b : float2 K) (r : float4 K) :
    (0 < p.x ∧ 0 < p.y → quadrantRadius p r = r.x) ∧
    (0 < p.x ∧ p.y ≤ 0 → quadrantRadius p r = r.y) ∧
    (p.x ≤ 0 ∧ 0 < p.y → quadrantRadius p r = r.z) ∧
    (p.x ≤ 0 ∧ p.y ≤ 0 → quadrantRadius p r = r.w) ∧
    signed_distance_to_rounded_box sqrt p b r =
      min (max (|p.x| - b.x + quadrantRadius p r) (|p.y| - b.y + quadrantRadius p r)) 0
        + sqrt ((max (|p.x| - b.x + quadrantRadius p r) 0) ^ 2
            + (max (|p.y| - b.y + quadrantRadius p r) 0) ^ 2)
        - quadrantRadius p r ∧
    ∀ s : float4 K, quadrantRadius p s = quadrantRadius p r →
      signed_distance_to_rounded_box sqrt p b s = signed_distance_to_rounded_box sqrt p b r := by
  refine ⟨?_, ?_, ?_, ?_, ?_, ?_⟩
  · intro h
    simp [quadrantRadius, h.1, h.2]
  · intro h
    simp [quadrantRadius, h.1, h.2, not_lt.mpr h.2]
  · intro h
    simp [quadrantRadius, h.1, h.2, not_lt.mpr h.1]
  · intro h
    simp [quadrantRadius, h.1, h.2, not_lt.mpr h.1, not_lt.mpr h.2]
  · rw [signed_distance_to_rounded_box_eq_formula]
    rfl
  · intro s hs
    rw [signed_distance_to_rounded_box_eq_formula, signed_distance_to_rounded_box_eq_formula, hs]

/-- Instance of C7 at `p = (1, -1)` (bottom-right quadrant), `b = (2, 1)`: the radius used is
`r.y`, and radii vectors `(1, 1/2, 3, 4)` and `(7, 1/2, 8, 9)` give the same value. -/
theorem rounded_box_uses_quadrant_radius_witness :
    quadrantRadius (⟨1, -1⟩ : float2 ℝ) ⟨1, 1 / 2, 3, 4⟩ = 1 / 2 ∧
    signed_distance_to_rounded_box Real.sqrt (⟨1, -1⟩ : float2 ℝ) ⟨2, 1⟩ ⟨7, 1 / 2, 8, 9⟩ =
      signed_distance_to_rounded_box Real.sqrt (⟨1, -1⟩ : float2 ℝ) ⟨2, 1⟩ ⟨1, 1 / 2, 3, 4⟩ := by
  have h := rounded_box_uses_quadrant_radius Real.sqrt (⟨1, -1⟩ : float2 ℝ) ⟨2, 1⟩
    ⟨1, 1 / 2, 3, 4⟩
  have hq : quadrantRadius (⟨1, -1⟩ : float2 ℝ) ⟨1, 1 / 2, 3, 4⟩ = 1 / 2 :=
    h.2.1 ⟨by norm_num, by norm_num⟩
  refine ⟨hq, h.2.2.2.2.2 ⟨7, 1 / 2, 8, 9⟩ ?_⟩
  rw [hq]
  exact (rounded_box_uses_quadrant_radius Real.sqrt (⟨1, -1⟩ : float2 ℝ) ⟨2, 1⟩
    ⟨7, 1 / 2, 8, 9⟩).2.1 ⟨by norm_num, by norm_num⟩

/-- C8: over the reals, for a sharp box (`r = (0,0,0,0)`) with half-extents `b ≥ 0` and every
point `p` inside it (`|p.x| ≤ b.x` and `|p.y| ≤ b.y`), the result is the negated distance to
the nearest edge, `−min(b.x − |p.x|, b.y − |p.y|)`, hence `≤ 0`. -/
theorem sharp_box_inside (p b : float2 ℝ) (_hbx : 0 ≤ b.x) (_hby : 0 ≤ b.y)
    (hx : |p.x| ≤ b.x) (hy : |p.y| ≤ b.y) :
    signed_distance_to_rounded_box Real.sqrt p b ⟨0, 0, 0, 0⟩
        = -min (b.x - |p.x|) (b.y - |p.y|) ∧
    signed_distance_to_rounded_box Real.sqrt p b ⟨0, 0, 0, 0⟩ ≤ 0 := by
  have hval : signed_distance_to_rounded_box Real.sqrt p b ⟨0, 0, 0, 0⟩
      = -min (b.x - |p.x|) (b.y - |p.y|) := by
    rw [signed_distance_to_rounded_box_eq_formula, quadrantRadius_zero]
    unfold roundedBoxFormula
    have hqx : |p.x| - b.x + 0 ≤ 0 := by linarith
    have hqy : |p.y| - b.y + 0 ≤ 0 := by linarith
    simp only [max_eq_right hqx, max_eq_right hqy, min_eq_left (max_le hqx hqy)]
    rw [show ((0 : ℝ) ^ 2 + 0 ^ 2) = 0 by norm_num, Real.sqrt_zero]
    rcases le_total (|p.x| - b.x) (|p.y| - b.y) with h | h
    · rw [max_eq_right (by linarith), min_eq_right (by linarith)]
      ring
    · rw [max_eq_left (by linarith), min_eq_left (by linarith)]
      ring
  refine ⟨hval, ?_⟩
  rw [hval]
  have : 0 ≤ min (b.x - |p.x|) (b.y - |p.y|) := le_min (by linarith) (by linarith)
  linarith

/-- Instance of C8 at the centre of a sharp box: `p = (0,0)`, `b = (5,5)`, `r = (0,0,0,0)`
gives `−5`. -/
theorem sharp_box_inside_witness :
    signed_distance_to_rounded_box Real.sqrt (⟨0, 0⟩ : float2 ℝ) ⟨5, 5⟩ ⟨0, 0, 0, 0⟩ = -5 := by
  have h := (sharp_box_inside (⟨0, 0⟩ : float2 ℝ) ⟨5, 5⟩ (by norm_num) (by norm_num)
    (by norm_num) (by norm_num)).1
  rw [h]
  norm_num

/-- C9: over the reals, for a sharp box (`r = (0,0,0,0)`) with half-extents `b ≥ 0` and every
point `p` diagonally outside it (`|p.x| ≥ b.x` and `|p.y| ≥ b.y`), the result is the Euclidean
distance from `p` to the nearest corner, `sqrt((|p.x| − b.x)² + (|p.y| − b.y)²)`, and is
`≥ 0`. -/
theorem sharp_box_diagonal_outside (p b : float2 ℝ) (_hbx : 0 ≤ b.x) (_hby : 0 ≤ b.y)
    (hx : b.x ≤ |p.x|) (hy : b.y ≤ |p.y|) :
    signed_distance_to_rounded_box Real.sqrt p b ⟨0, 0, 0, 0⟩
        = Real.sqrt ((|p.x| - b.x) ^ 2 + (|p.y| - b.y) ^ 2) ∧
    0 ≤ signed_distance_to_rounded_box Real.sqrt p b ⟨0, 0, 0, 0⟩ := by
  have hval : signed_distance_to_rounded_box Real.sqrt p b ⟨0, 0, 0, 0⟩
      = Real.sqrt ((|p.x| - b.x) ^ 2 + (|p.y| - b.y) ^ 2) := by
    rw [signed_distance_to_rounded_box_eq_formula, quadrantRadius_zero]
    unfold roundedBoxFormula
    have hqx : 0 ≤ |p.x| - b.x + 0 := by linarith
    have hqy : 0 ≤ |p.y| - b.y + 0 := by linarith
    simp only [max_eq_left hqx, max_eq_left hqy, min_eq_right (le_max_of_le_left hqx)]
    simp
  refine ⟨hval, ?_⟩
  rw [hval]
  exact Real.sqrt_nonneg _

/-- Instance of C9 far outside a sharp box: `p = (100,100)`, `b = (1,1)`, `r = (0,0,0,0)`
gives `99·√2`. -/
theorem sharp_box_diagonal_outside_witness :
    signed_distance_to_rounded_box Real.sqrt (⟨100, 100⟩ : float2 ℝ) ⟨1, 1⟩ ⟨0, 0, 0, 0⟩
      = 99 * Real.sqrt 2 := by
  have h := (sharp_box_diagonal_outside (⟨100, 100⟩ : float2 ℝ) ⟨1, 1⟩ (by norm_num)
    (by norm_num) (by norm_num) (by norm_num)).1
  rw [h]
  have e : ((|(100 : ℝ)| - 1) ^ 2 + (|(100 : ℝ)| - 1) ^ 2) = 99 ^ 2 * 2 := by
    rw [abs_of_pos (by norm_num : (0 : ℝ) < 100)]
    norm_num
  rw [e, Real.sqrt_mul (by positivity), Real.sqrt_sq (by norm_num)]

/-! ## The line segment -/

/-- The clamped parameter lies in `[0, 1]`. -/
theorem segmentParam_mem {K : Type} [LinearOrderedField K] (p a b : float2 K) :
    0 ≤ segmentParam p a b ∧ segmentParam p a b ≤ 1 := by
  unfold segmentParam metal.clamp
  exact ⟨le_min (le_max_right _ _) zero_le_one, min_le_right _ _⟩

/-- The value returned is the distance from `p` to the segment point at the clamped
parameter. -/
theorem distance_to_line_segment_eq {K : Type} [LinearOrderedField K] (sqrt : K → K)
    (p a b : float2 K) :
    distance_to_line_segment sqrt p a b
      = euclideanDist sqrt p (segmentPoint a b (segmentParam p a b)) := by
  unfold distance_to_line_segment euclideanDist segmentPoint metal.length metal.dot
  simp only [float2.sub_x, float2.sub_y, float2.mul_x, float2.mul_y]
  congr 1
  unfold segmentParam metal.dot
  simp only [float2.sub_x, float2.sub_y]
  ring

/-- Two distinct points have a difference of positive squared length. -/
theorem dot_sub_self_pos (a b : float2 ℝ) (hab : a ≠ b) :
    0 < metal.dot (b - a) (b - a) := by
  unfold metal.dot
  simp only [float2.sub_x, float2.sub_y]
  by_contra hcon
  have h0 : (b.x - a.x) * (b.x - a.x) + (b.y - a.y) * (b.y - a.y) = 0 :=
    le_antisymm (not_lt.mp hcon) (add_nonneg (mul_self_nonneg _) (mul_self_nonneg _))
  have hx : b.x - a.x = 0 := by nlinarith [mul_self_nonneg (b.x - a.x), mul_self_nonneg (b.y - a.y)]
  have hy : b.y - a.y = 0 := by nlinarith [mul_self_nonneg (b.x - a.x), mul_self_nonneg (b.y - a.y)]
  exact hab (float2.ext (by linarith) (by linarith))

/-- Among the parameters of `[0, 1]` the clamped one gives the least squared distance. -/
theorem segmentParam_sq_min (p a b : float2 ℝ) (hab : a ≠ b) (t : ℝ) (ht0 : 0 ≤ t)
    (ht1 : t ≤ 1) :
    (p.x - (segmentPoint a b (segmentParam p a b)).x) ^ 2
        + (p.y - (segmentPoint a b (segmentParam p a b)).y) ^ 2
      ≤ (p.x - (segmentPoint a b t).x) ^ 2 + (p.y - (segmentPoint a b t).y) ^ 2 := by
  have hD := dot_sub_self_pos a b hab
  obtain ⟨h0, h1⟩ := segmentParam_mem p a b
  have hdef : segmentParam p a b
      = min (max (metal.dot (p - a) (b - a) / metal.dot (b - a) (b - a)) 0) 1 := rfl
  set h := segmentParam p a b with hh
  set D := metal.dot (b - a) (b - a) with hDdef
  set N := metal.dot (p - a) (b - a) with hNdef
  have hN : N = (p.x - a.x) * (b.x - a.x) + (p.y - a.y) * (b.y - a.y) := rfl
  have hDv : D = (b.x - a.x) * (b.x - a.x) + (b.y - a.y) * (b.y - a.y) := rfl
  have key : (t - h) * (D * (t + h) - 2 * N) ≥ 0 := by
    rcases le_total (N / D) 0 with hs | hs
    · have hNle : N ≤ 0 := by
        have := mul_le_mul_of_nonneg_right hs hD.le
        rwa [div_mul_cancel₀ _ hD.ne', zero_mul] at this
      have hz : h = 0 := by rw [hdef, max_eq_right hs]; exact min_eq_left zero_le_one
      rw [hz]
      have : 0 ≤ D * t := mul_nonneg hD.le ht0
      nlinarith
    · rcases le_total (N / D) 1 with hs1 | hs1
      · have hz : h = N / D := by rw [hdef, max_eq_left hs, min_eq_left hs1]
        have hND : N = h * D := by rw [hz, div_mul_cancel₀ _ hD.ne']
        rw [hND]
        nlinarith [mul_nonneg hD.le (sq_nonneg (t - h))]
      · have hz : h = 1 := by
          rw [hdef, max_eq_left hs]; exact min_eq_right hs1
        have hNge : D ≤ N := by
          have := mul_le_mul_of_nonneg_right hs1 hD.le
          rwa [div_mul_cancel₀ _ hD.ne', one_mul] at this
        rw [hz]
        have h1t : 0 ≤ 1 - t := by linarith
        nlinarith [mul_nonneg h1t hD.le, mul_nonneg h1t (sub_nonneg.mpr hNge)]
  have e : (p.x - (segmentPoint a b t).x) ^ 2 + (p.y - (segmentPoint a b t).y) ^ 2
      - ((p.x - (segmentPoint a b h).x) ^ 2 + (p.y - (segmentPoint a b h).y) ^ 2)
      = (t - h) * (D * (t + h) - 2 * N) := by
    rw [hDv, hN]
    simp only [segmentPoint]
    ring
  linarith

/-- The value returned is at most the distance from `p` to any point of the segment. -/
theorem distance_to_line_segment_le (p a b : float2 ℝ) (hab : a ≠ b) (t : ℝ) (ht0 : 0 ≤ t)
    (ht1 : t ≤ 1) :
    distance_to_line_segment Real.sqrt p a b
      ≤ euclideanDist Real.sqrt p (segmentPoint a b t) := by
  rw [distance_to_line_segment_eq]
  exact Real.sqrt_le_sqrt (segmentParam_sq_min p a b hab t ht0 ht1)

/-- C4: over the reals, for every point `p` and endpoints `a ≠ b`,
`distance_to_line_segment p a b` is the minimum over `t` in `[0,1]` of the Euclidean distance
`|p − (a + t·(b − a))|`: it is attained at some `t` of `[0,1]` and is a lower bound for
every `t` of `[0,1]`. -/
theorem distance_to_line_segment_is_min (p a b : float2 ℝ) (hab : a ≠ b) :
    (∃ t : ℝ, 0 ≤ t ∧ t ≤ 1 ∧
      distance_to_line_segment Real.sqrt p a b
        = euclideanDist Real.sqrt p (segmentPoint a b t)) ∧
    ∀ t : ℝ, 0 ≤ t → t ≤ 1 →
      distance_to_line_segment Real.sqrt p a b
        ≤ euclideanDist Real.sqrt p (segmentPoint a b t) :=
  ⟨⟨segmentParam p a b, (segmentParam_mem p a b).1, (segmentParam_mem p a b).2,
      distance_to_line_segment_eq Real.sqrt p a b⟩,
    fun t ht0 ht1 => distance_to_line_segment_le p a b hab t ht0 ht1⟩

/-- Instances of C4 on the segment from `(0,0)` to `(10,0)`: `p = (5,5)` gives 5 and
`p = (15,0)` gives 5 (clamped endpoint), and in both cases 5 bounds the distance to every
point of the segment from below. -/
theorem distance_to_line_segment_is_min_witness :
    (⟨0, 0⟩ : float2 ℝ) ≠ ⟨10, 0⟩ ∧
    distance_to_line_segment Real.sqrt (⟨5, 5⟩ : float2 ℝ) ⟨0, 0⟩ ⟨10, 0⟩ = 5 ∧
    (∀ t : ℝ, 0 ≤ t → t ≤ 1 →
      5 ≤ euclideanDist Real.sqrt (⟨5, 5⟩ : float2 ℝ) (segmentPoint ⟨0, 0⟩ ⟨10, 0⟩ t)) ∧
    distance_to_line_segment Real.sqrt (⟨15, 0⟩ : float2 ℝ) ⟨0, 0⟩ ⟨10, 0⟩ = 5 ∧
    (∀ t : ℝ, 0 ≤ t → t ≤ 1 →
      5 ≤ euclideanDist Real.sqrt (⟨15, 0⟩ : float2 ℝ) (segmentPoint ⟨0, 0⟩ ⟨10, 0⟩ t)) := by
  have hne : (⟨0, 0⟩ : float2 ℝ) ≠ ⟨10, 0⟩ := by
    intro h
    have := congrArg float2.x h
    norm_num at this
  have h25 : Real.sqrt 25 = 5 := by
    rw [show (25 : ℝ) = 5 ^ 2 by norm_num, Real.sqrt_sq (by norm_num)]
  have v1 : distance_to_line_segment Real.sqrt (⟨5, 5⟩ : float2 ℝ) ⟨0, 0⟩ ⟨10, 0⟩ = 5 := by
    have hc : min (max ((5 : ℝ) * 10 / (10 * 10)) 0) 1 = 1 / 2 := by
      rw [max_eq_left (by norm_num), min_eq_left (by norm_num)]
      norm_num
    simp only [distance_to_line_segment, metal.length, metal.dot, metal.clamp, float2.sub_x,
      float2.sub_y, float2.mul_x, float2.mul_y, sub_zero, mul_zero, add_zero, zero_mul, hc]
    norm_num
    exact h25
  have v2 : distance_to_line_segment Real.sqrt (⟨15, 0⟩ : float2 ℝ) ⟨0, 0⟩ ⟨10, 0⟩ = 5 := by
    have hc : min (max ((15 : ℝ) * 10 / (10 * 10)) 0) 1 = 1 := by
      rw [max_eq_left (by norm_num), min_eq_right (by norm_num)]
    simp only [distance_to_line_segment, metal.length, metal.dot, metal.clamp, float2.sub_x,
      float2.sub_y, float2.mul_x, float2.mul_y, sub_zero, mul_zero, add_zero, zero_mul, hc]
    norm_num
    exact h25
  have m1 := (distance_to_line_segment_is_min (⟨5, 5⟩ : float2 ℝ) ⟨0, 0⟩ ⟨10, 0⟩ hne).2
  have m2 := (distance_to_line_segment_is_min (⟨15, 0⟩ : float2 ℝ) ⟨0, 0⟩ ⟨10, 0⟩ hne).2
  rw [v1] at m1
  rw [v2] at m2
  exact ⟨hne, v1, m1, v2, m2⟩

/-- C5: over the reals, for `a ≠ b`, `distance_to_line_segment p a b = 0` exactly when `p`
is a point `a + t·(b − a)` of the segment with `t` in `[0,1]`, endpoints included. -/
theorem distance_to_line_segment_eq_zero_iff (p a b : float2 ℝ) (hab : a ≠ b) :
    distance_to_line_segment Real.sqrt p a b = 0
      ↔ ∃ t : ℝ, 0 ≤ t ∧ t ≤ 1 ∧ p = segmentPoint a b t := by
  constructor
  · intro h0
    refine ⟨segmentParam p a b, (segmentParam_mem p a b).1, (segmentParam_mem p a b).2, ?_⟩
    rw [distance_to_line_segment_eq] at h0
    unfold euclideanDist at h0
    rw [Real.sqrt_eq_zero (add_nonneg (sq_nonneg _) (sq_nonneg _))] at h0
    have hx : (p.x - (segmentPoint a b (segmentParam p a b)).x) ^ 2 = 0 := by
      nlinarith [sq_nonneg (p.x - (segmentPoint a b (segmentParam p a b)).x),
        sq_nonneg (p.y - (segmentPoint a b (segmentParam p a b)).y)]
    have hy : (p.y - (segmentPoint a b (segmentParam p a b)).y) ^ 2 = 0 := by
      nlinarith [sq_nonneg (p.x - (segmentPoint a b (segmentParam p a b)).x),
        sq_nonneg (p.y - (segmentPoint a b (segmentParam p a b)).y)]
    exact float2.ext (sub_eq_zero.mp ((pow_eq_zero_iff two_ne_zero).mp hx))
      (sub_eq_zero.mp ((pow_eq_zero_iff two_ne_zero).mp hy))
  · rintro ⟨t, ht0, ht1, rfl⟩
    have hle := distance_to_line_segment_le (segmentPoint a b t) a b hab t ht0 ht1
    have hz : euclideanDist Real.sqrt (segmentPoint a b t) (segmentPoint a b t) = 0 := by
      simp [euclideanDist]
    rw [hz] at hle
    have hge : 0 ≤ distance_to_line_segment Real.sqrt (segmentPoint a b t) a b := by
      rw [distance_to_line_segment_eq]
      exact Real.sqrt_nonneg _
    exact le_antisymm hle hge

/-- Instance of C5 on the segment from `(0,0)` to `(10,0)`: the endpoint `(10,0)` and the
interior point `(4,0)` are at distance 0, and `(15,0)`, which is on the line but not on the
segment, is not. -/
theorem distance_to_line_segment_eq_zero_iff_witness :
    distance_to_line_segment Real.sqrt (⟨10, 0⟩ : float2 ℝ) ⟨0, 0⟩ ⟨10, 0⟩ = 0 ∧
    distance_to_line_segment Real.sqrt (⟨4, 0⟩ : float2 ℝ) ⟨0, 0⟩ ⟨10, 0⟩ = 0 ∧
    distance_to_line_segment Real.sqrt (⟨15, 0⟩ : float2 ℝ) ⟨0, 0⟩ ⟨10, 0⟩ ≠ 0 := by
  have hne : (⟨0, 0⟩ : float2 ℝ) ≠ ⟨10, 0⟩ := by
    intro h
    have := congrArg float2.x h
    norm_num at this
  refine ⟨?_, ?_, ?_⟩
  · refine (distance_to_line_segment_eq_zero_iff _ _ _ hne).mpr ⟨1, by norm_num, by norm_num, ?_⟩
    ext <;> simp [segmentPoint]
  · refine (distance_to_line_segment_eq_zero_iff _ _ _ hne).mpr
      ⟨2 / 5, by norm_num, by norm_num, ?_⟩
    ext
    · simp [segmentPoint]
      norm_num
    · simp [segmentPoint]
  · intro h0
    obtain ⟨t, _, ht1, ht⟩ := (distance_to_line_segment_eq_zero_iff _ _ _ hne).mp h0
    have hx := congrArg float2.x ht
    simp [segmentPoint] at hx
    linarith

/-! ## Continuity of the rounded box across the quadrant boundaries -/

/-- Where one component of `q = |p| − b + ρ` is not positive the rounded-rectangle formula
does not depend on the radius: it is the sharp box value `max(|p.x| − b.x, |p.y| − b.y)`. -/
theorem roundedBoxFormula_eq_sharp (p b : float2 ℝ) (ρ : ℝ)
    (h : |p.x| - b.x + ρ ≤ 0 ∨ |p.y| - b.y + ρ ≤ 0) :
    roundedBoxFormula Real.sqrt p b ρ = max (|p.x| - b.x) (|p.y| - b.y) := by
  unfold roundedBoxFormula
  simp only []
  have hmax : max (|p.x| - b.x) (|p.y| - b.y)
      = max (|p.x| - b.x + ρ) (|p.y| - b.y + ρ) - ρ := by
    rw [max_add_add_right]
    ring
  rw [hmax]
  rcases h with hx | hy
  · rw [max_eq_right hx]
    rw [show (0 : ℝ) ^ 2 + max (|p.y| - b.y + ρ) 0 ^ 2 = max (|p.y| - b.y + ρ) 0 ^ 2 by ring,
      Real.sqrt_sq (le_max_right _ _)]
    rcases le_total (|p.y| - b.y + ρ) 0 with hy | hy
    · rw [max_eq_right hy, min_eq_left (max_le hx hy)]
      ring
    · rw [max_eq_left hy, max_eq_right (hx.trans hy), min_eq_right hy]
      ring
  · rw [max_eq_right hy]
    rw [show max (|p.x| - b.x + ρ) 0 ^ 2 + (0 : ℝ) ^ 2 = max (|p.x| - b.x + ρ) 0 ^ 2 by ring,
      Real.sqrt_sq (le_max_right _ _)]
    rcases le_total (|p.x| - b.x + ρ) 0 with hx | hx
    · rw [max_eq_right hx, min_eq_left (max_le hx hy)]
      ring
    · rw [max_eq_left hx, max_eq_left (hy.trans hx), min_eq_right hx]
      ring

/-- For a fixed radius the rounded-rectangle formula is continuous in the point. -/
theorem continuous_roundedBoxFormula (b : float2 ℝ) (ρ : ℝ) :
    Continuous (fun v : ℝ × ℝ => roundedBoxFormula Real.sqrt (float2.ofProd v) b ρ) := by
  unfold roundedBoxFormula float2.ofProd
  simp only []
  fun_prop

/-- The body of `signed_distance_to_rounded_box` as a case split on the two coordinate
signs. -/
theorem signed_distance_to_rounded_box_cases (b : float2 ℝ) (r : float4 ℝ) :
    (fun v : ℝ × ℝ => signed_distance_to_rounded_box Real.sqrt (float2.ofProd v) b r)
      = fun v : ℝ × ℝ =>
          if v.1 ≤ 0 then
            (if v.2 ≤ 0 then roundedBoxFormula Real.sqrt (float2.ofProd v) b r.w
              else roundedBoxFormula Real.sqrt (float2.ofProd v) b r.z)
          else
            (if v.2 ≤ 0 then roundedBoxFormula Real.sqrt (float2.ofProd v) b r.y
              else roundedBoxFormula Real.sqrt (float2.ofProd v) b r.x) := by
  funext v
  rw [signed_distance_to_rounded_box_eq_formula]
  unfold quadrantRadius
  by_cases hx : v.1 ≤ 0 <;> by_cases hy : v.2 ≤ 0 <;>
    simp [float2.ofProd, hx, hy, not_lt.mpr, not_le.mp, lt_of_not_le]

/-- With every radius at most both half-extents the rounded box distance is continuous on the
whole plane. -/
theorem continuous_signed_distance_to_rounded_box (b : float2 ℝ) (r : float4 ℝ)
    (hr : ∀ ρ ∈ [r.x, r.y, r.z, r.w], ρ ≤ b.x ∧ ρ ≤ b.y) :
    Continuous
      (fun v : ℝ × ℝ => signed_distance_to_rounded_box Real.sqrt (float2.ofProd v) b r) := by
  have hx := hr r.x (by simp)
  have hy := hr r.y (by simp)
  have hz := hr r.z (by simp)
  have hw := hr r.w (by simp)
  have onX : ∀ (v : ℝ × ℝ) (ρ : ℝ), ρ ≤ b.x → v.1 = 0 →
      roundedBoxFormula Real.sqrt (float2.ofProd v) b ρ
        = max (|v.1| - b.x) (|v.2| - b.y) := by
    intro v ρ hρ hv
    refine roundedBoxFormula_eq_sharp (float2.ofProd v) b ρ (Or.inl ?_)
    simp only [float2.ofProd, hv, abs_zero]
    linarith
  have onY : ∀ (v : ℝ × ℝ) (ρ : ℝ), ρ ≤ b.y → v.2 = 0 →
      roundedBoxFormula Real.sqrt (float2.ofProd v) b ρ
        = max (|v.1| - b.x) (|v.2| - b.y) := by
    intro v ρ hρ hv
    refine roundedBoxFormula_eq_sharp (float2.ofProd v) b ρ (Or.inr ?_)
    simp only [float2.ofProd, hv, abs_zero]
    linarith
  rw [signed_distance_to_rounded_box_cases]
  refine Continuous.if_le ?_ ?_ continuous_fst continuous_const ?_
  · refine Continuous.if_le (continuous_roundedBoxFormula b r.w)
      (continuous_roundedBoxFormula b r.z) continuous_snd continuous_const ?_
    intro v hv
    rw [onY v r.w hw.2 hv, onY v r.z hz.2 hv]
  · refine Continuous.if_le (continuous_roundedBoxFormula b r.y)
      (continuous_roundedBoxFormula b r.x) continuous_snd continuous_const ?_
    intro v hv
    rw [onY v r.y hy.2 hv, onY v r.x hx.2 hv]
  · intro v hv
    simp only [onX v r.w hw.1 hv, onX v r.z hz.1 hv, onX v r.y hy.1 hv, onX v r.x hx.1 hv]

/-- C6, as stated, fails: with `b = (1,1)` and radii `r = (4,0,0,0)` the function
`p ↦ signed_distance_to_rounded_box p b r` is not continuous at the boundary point
`p = (0,1)`: its value there is 0, while at every `(e, 1)` with `e > 0` it is at least 1. -/
theorem rounded_box_discontinuous_counterexample :
    ¬ ContinuousAt
      (fun v : ℝ × ℝ =>
        signed_distance_to_rounded_box Real.sqrt (float2.ofProd v) ⟨1, 1⟩ ⟨4, 0, 0, 0⟩)
      (0, 1) := by
  have h0 : signed_distance_to_rounded_box Real.sqrt (float2.ofProd (0, 1)) ⟨1, 1⟩
      ⟨4, 0, 0, 0⟩ = 0 := by
    rw [signed_distance_to_rounded_box_eq_formula]
    simp [quadrantRadius, roundedBoxFormula, float2.ofProd]
  have hpos : ∀ e : ℝ, 0 < e →
      1 ≤ signed_distance_to_rounded_box Real.sqrt (float2.ofProd (e, 1)) ⟨1, 1⟩
        ⟨4, 0, 0, 0⟩ := by
    intro e he
    rw [signed_distance_to_rounded_box_eq_formula]
    have hq : quadrantRadius (float2.ofProd (e, 1)) (⟨4, 0, 0, 0⟩ : float4 ℝ) = 4 := by
      simp [quadrantRadius, float2.ofProd, he]
    rw [hq]
    simp only [roundedBoxFormula, float2.ofProd, abs_of_pos he, abs_one]
    have hqx : (0 : ℝ) ≤ e - 1 + 4 := by linarith
    have hqy : (0 : ℝ) ≤ 1 - 1 + 4 := by norm_num
    rw [max_eq_left hqx, max_eq_left hqy, min_eq_right (le_max_of_le_left hqx)]
    have h5 : (5 : ℝ) ≤ Real.sqrt ((e - 1 + 4) ^ 2 + (1 - 1 + 4) ^ 2) := by
      apply Real.le_sqrt_of_sq_le
      nlinarith
    linarith
  intro hc
  rw [Metric.continuousAt_iff] at hc
  obtain ⟨δ, hδ, H⟩ := hc 1 one_pos
  have hd : dist ((δ / 2, 1) : ℝ × ℝ) (0, 1) < δ := by
    rw [Prod.dist_eq]
    simp only [Real.dist_eq, sub_zero, sub_self, abs_zero]
    rw [abs_of_pos (by linarith), max_eq_left (by linarith)]
    linarith
  have hlt := H hd
  rw [h0, Real.dist_eq, sub_zero] at hlt
  have hge := hpos (δ / 2) (by linarith)
  have := (abs_lt.mp hlt).2
  linarith

/-- C6, amended: over the reals, for every half-extent vector `b` and every fixed radii
vector `r` whose four radii are each at most `b.x` and at most `b.y`, the function
`p ↦ signed_distance_to_rounded_box p b r` is continuous at every point with `p.x = 0` or
`p.y = 0`. -/
theorem rounded_box_continuous_across_quadrants (b : float2 ℝ) (r : float4 ℝ)
    (hr : ∀ ρ ∈ [r.x, r.y, r.z, r.w], ρ ≤ b.x ∧ ρ ≤ b.y) :
    ∀ v : ℝ × ℝ, v.1 = 0 ∨ v.2 = 0 →
      ContinuousAt
        (fun w : ℝ × ℝ => signed_distance_to_rounded_box Real.sqrt (float2.ofProd w) b r) v :=
  fun _ _ => (continuous_signed_distance_to_rounded_box b r hr).continuousAt

/-- Instance of amended C6: with `b = (4,4)` and the four different radii `r = (4,0,1,2)` the
function is continuous at the boundary points `(0,1)` and `(3,0)` and at the origin. -/
theorem rounded_box_continuous_across_quadrants_witness :
    ContinuousAt
      (fun v : ℝ × ℝ =>
        signed_distance_to_rounded_box Real.sqrt (float2.ofProd v) ⟨4, 4⟩ ⟨4, 0, 1, 2⟩) (0, 1) ∧
    ContinuousAt
      (fun v : ℝ × ℝ =>
        signed_distance_to_rounded_box Real.sqrt (float2.ofProd v) ⟨4, 4⟩ ⟨4, 0, 1, 2⟩) (3, 0) ∧
    ContinuousAt
      (fun v : ℝ × ℝ =>
        signed_distance_to_rounded_box Real.sqrt (float2.ofProd v) ⟨4, 4⟩ ⟨4, 0, 1, 2⟩) (0, 0) := by
  have hr : ∀ ρ ∈ [(4 : ℝ), 0, 1, 2], ρ ≤ (4 : ℝ) ∧ ρ ≤ (4 : ℝ) := by
    intro ρ hρ
    simp only [List.mem_cons, List.mem_singleton, List.not_mem_nil, or_false] at hρ
    rcases hρ with h | h | h | h <;> rw [h] <;> norm_num
  exact ⟨rounded_box_continuous_across_quadrants ⟨4, 4⟩ ⟨4, 0, 1, 2⟩ hr (0, 1) (Or.inl rfl),
    rounded_box_continuous_across_quadrants ⟨4, 4⟩ ⟨4, 0, 1, 2⟩ hr (3, 0) (Or.inr rfl),
    rounded_box_continuous_across_quadrants ⟨4, 4⟩ ⟨4, 0, 1, 2⟩ hr (0, 0) (Or.inl rfl)⟩

end Linezz
